import Mathlib

/-!
Formal model of `tool.py`, a command-line utility that mirrors a local
directory tree into a Redis key-value store.  Byte strings and text strings
are both modelled as lists of characters; the filesystem walk is modelled by
the list of (relative path, file content) pairs it enumerates, in enumeration
order; the `json.dumps(json.load(f))` round trip is modelled by an abstract
function `jd : Str → Option Str` returning the canonical re-serialization or
`none` on a parse error.
-/

/-- Byte/character strings are modelled as lists of characters. -/
abbrev Str : Type := List Char

/-- Python `s.rsplit(c)[-1]` (equally `s.split(c)[-1]`): the segment after the
last occurrence of `c`, the whole string when `c` is absent. -/
def afterLast (c : Char) (l : Str) : Str :=
  (l.reverse.takeWhile (fun x => ¬ x = c)).reverse

/-- The complementary part of `afterLast`: everything up to and including the
last occurrence of `c` (empty when `c` is absent). -/
def upToLast (c : Char) (l : Str) : Str :=
  (l.reverse.dropWhile (fun x => ¬ x = c)).reverse

/-- Asset-mode logical key (tool.py line 51):
`path[:-11] if path.endswith('index.html') else path`. -/
def assetKey (p : Str) : Str :=
  if (("index.html").data).isSuffixOf p then p.take (p.length - 11) else p

/-- Card-mode logical key (tool.py line 79): `path.split('/')[-1].split('.')[0]`. -/
def cardKey (p : Str) : Str :=
  (afterLast '/' p).takeWhile (fun x => ¬ x = '.')

/-- The mimetype table of tool.py lines 36-44. -/
def mimetypes : List (Str × Str) :=
  [(("html").data, ("text/html").data),
   (("css").data, ("text/css").data),
   (("js").data, ("application/javascript").data),
   (("svg").data, ("image/svg+xml").data),
   (("ico").data, ("image/vnd.microsoft.icon").data),
   (("woff2").data, ("font/woff2").data),
   (("png").data, ("image/png").data)]

/-- First-match association-list lookup (models both Python `dict.get` on the
mimetype table and the per-key state of the store). -/
def lookupKey {α : Type} : List (Str × α) → Str → Option α
  | [], _ => none
  | e :: rest, k => if e.1 = k then some e.2 else lookupKey rest k

/-- Replace the value of the first entry with the given key, or append a new
entry when the key is absent. -/
def setKey {α : Type} : List (Str × α) → Str → α → List (Str × α)
  | [], k, v => [(k, v)]
  | e :: rest, k, v => if e.1 = k then (k, v) :: rest else e :: setKey rest k v

/-- The keys of an association list, in order. -/
def keysOf {α : Type} (m : List (Str × α)) : List Str := m.map Prod.fst

/-- tool.py lines 63-64: `mimetypes.get(item[1].rsplit('.')[-1], b'text/plain')`,
applied to the full path `directory + '/' + relative_path`. -/
def mimeFor (fullPath : Str) : Str :=
  (lookupKey mimetypes (afterLast '.' fullPath)).getD (("text/plain").data)

/-- Observable state of the Redis store: the stored key-value pairs, the
per-key time-to-live entries, and the list of published (channel, payload)
messages in publication order. -/
structure RedisState where
  store : List (Str × Str)
  ttl : List (Str × Nat)
  published : List (Str × Str)
deriving DecidableEq

/-- Model of the redis client `set(key, value)` (plain `SET`, tool.py lines 67
and 91) per its documented semantics: store the value under the key and
discard any previous time to live associated with the key. -/
def redisSet (s : RedisState) (k v : Str) : RedisState :=
  { s with store := setKey s.store k v,
           ttl := s.ttl.filter (fun e => ¬ e.1 = k) }

/-- Model of `expire(key, t)` (tool.py lines 73 and 97): set a time to live on
an existing key; a no-op when the key is absent. -/
def redisExpire (s : RedisState) (k : Str) (t : Nat) : RedisState :=
  if (lookupKey s.store k).isSome then { s with ttl := setKey s.ttl k t } else s

/-- Model of `publish(channel, message)` (tool.py lines 68 and 92). -/
def redisPublish (s : RedisState) (ch m : Str) : RedisState :=
  { s with published := s.published ++ [(ch, m)] }

/-- Model of `scan_iter('<pre>*')` followed by stripping the namespace
(tool.py lines 54 and 81): the keys carrying the literal leading segment
`pre`, with that segment removed. -/
def remoteKeys (s : RedisState) (pre : Str) : List Str :=
  ((keysOf s.store).filter (fun k => pre.isPrefixOf k)).map (fun k => k.drop pre.length)

/-- The fixed notification channel (tool.py lines 68 and 92). -/
def invalChan : Str := ("invalidations").data

/-- The asset-mode namespace segment. -/
def assetNs : Str := ("asset:").data

/-- The card-mode namespace segment. -/
def cardNs : Str := ("card:").data

/-- The asset-mode upload loop (tool.py lines 56-69): for each local item,
drop its logical key from the remote inventory, write the mimetype-prefixed
content under the namespaced key and publish the logical key. -/
def assetLoop (dir : Str) : RedisState → List Str → List (Str × Str) →
    RedisState × List Str
  | s, rem, [] => (s, rem)
  | s, rem, (p, c) :: rest =>
      assetLoop dir
        (redisPublish
          (redisSet s (assetNs ++ assetKey p) (mimeFor (dir ++ ('/' :: p)) ++ (';' :: c)))
          invalChan (assetKey p))
        (rem.erase (assetKey p)) rest

/-- The stale-key expiration loop (tool.py lines 71-74 and 95-98): set a
`60 * 60 * 24` second time to live on each remaining remote key. -/
def expireLoop (pre : Str) (s : RedisState) (rem : List Str) : RedisState :=
  rem.foldl (fun st k => redisExpire st (pre ++ k) (60 * 60 * 24)) s

/-- The `sync_assets` branch (tool.py lines 46-74), with the walker's
enumeration given as `files` (relative path, content) and the starting store
state as `s`. -/
def syncAssets (dir : Str) (files : List (Str × Str)) (s : RedisState) : RedisState :=
  let r := assetLoop dir s (remoteKeys s assetNs) files
  expireLoop assetNs r.1 r.2

/-- The list of logical keys the `sync_assets` run expires (the remote
inventory left over after the upload loop). -/
def assetExpired (dir : Str) (files : List (Str × Str)) (s : RedisState) : List Str :=
  (assetLoop dir s (remoteKeys s assetNs) files).2

/-- The card-mode upload loop (tool.py lines 83-93).  `jd` models
`json.dumps(json.load(f))`; a `none` result models the uncaught
`JSONDecodeError`, which stops the loop.  Returns the state reached, the
remaining remote inventory and a success flag. -/
def cardLoop (jd : Str → Option Str) : RedisState → List Str → List (Str × Str) →
    RedisState × List Str × Bool
  | s, rem, [] => (s, rem, true)
  | s, rem, (p, c) :: rest =>
      match jd c with
      | none => (s, rem.erase (cardKey p), false)
      | some v =>
          cardLoop jd
            (redisPublish (redisSet s (cardNs ++ cardKey p) v) invalChan (cardKey p))
            (rem.erase (cardKey p)) rest

/-- The `sync_cards` branch (tool.py lines 76-98).  The expiration loop runs
only when every file parsed; on a parse error the process dies with the state
reached so far (second component `false`). -/
def syncCards (jd : Str → Option Str) (files : List (Str × Str)) (s : RedisState) :
    RedisState × Bool :=
  let r := cardLoop jd s (remoteKeys s cardNs) files
  if r.2.2 then (expireLoop cardNs r.1 r.2.1, true) else (r.1, false)

/-- The list of logical keys a successful `sync_cards` run expires. -/
def cardExpired (jd : Str → Option Str) (files : List (Str × Str)) (s : RedisState) :
    List Str :=
  (cardLoop jd s (remoteKeys s cardNs) files).2.1

/-- Observable outcome of one process invocation: exit status, whether a usage
message was printed, whether the missing-REDIS_URL error was printed, whether
a store client was constructed, and the final store state. -/
structure MainResult where
  exitCode : Nat
  usageShown : Bool
  envErrorShown : Bool
  connected : Bool
  state : RedisState
deriving DecidableEq

/-- The module-level control flow of tool.py (lines 17-98).  `args` is
`sys.argv[1:]`, `env` the value of `REDIS_URL`, `walk` the directory walker
(mapping a directory to its enumerated relative paths and contents) and `jd`
the JSON round trip.  An unknown first argument falls through both `if`
branches and the process ends normally; a card-mode parse error escapes as an
uncaught exception (exit code 1). -/
def runMain (args : List Str) (env : Option Str) (walk : Str → List (Str × Str))
    (jd : Str → Option Str) (s : RedisState) : MainResult :=
  match args with
  | [] => ⟨1, true, false, false, s⟩
  | mode :: rest =>
    if mode = ("sync_assets").data ∧ rest = [] then ⟨1, true, false, false, s⟩
    else if mode = ("sync_cards").data ∧ rest = [] then ⟨1, true, false, false, s⟩
    else
      match env with
      | none => ⟨1, false, true, false, s⟩
      | some _ =>
        if mode = ("sync_assets").data then
          match rest with
          | d :: _ => ⟨0, false, false, true, syncAssets d (walk d) s⟩
          | [] => ⟨1, true, false, false, s⟩
        else if mode = ("sync_cards").data then
          match rest with
          | d :: _ =>
            let r := syncCards jd (walk d) s
            ⟨if r.2 then 0 else 1, false, false, true, r.1⟩
          | [] => ⟨1, true, false, false, s⟩
        else ⟨0, false, false, true, s⟩

/-- Sequential application of `setKey` for a list of writes (abstracts the
store component of the upload loops). -/
def applySets {α : Type} (m : List (Str × α)) (ps : List (Str × α)) : List (Str × α) :=
  ps.foldl (fun acc p => setKey acc p.1 p.2) m

/-- The value the last write to `k` in `ps` carries, if any. -/
def finalVal {α : Type} : List (Str × α) → Str → Option α
  | [], _ => none
  | p :: ps, k =>
      match finalVal ps k with
      | some v => some v
      | none => if p.1 = k then some p.2 else none

/-- The key list produced by applying the writes `ps` to a store whose key
list is `K`: existing keys stay in place, new keys are appended. -/
def addKeys {α : Type} (K : List Str) (ps : List (Str × α)) : List Str :=
  ps.foldl (fun acc p => if p.1 ∈ acc then acc else acc ++ [p.1]) K

/-- `list.remove` (with the `ValueError` swallowed) applied for each element
of `L` in turn: each erases its first occurrence from the inventory. -/
def eraseList (R L : List Str) : List Str := L.foldl (fun r l => r.erase l) R

/-- The (namespaced key, value) writes the asset upload loop performs, in
order. -/
def assetWrites (dir : Str) (files : List (Str × Str)) : List (Str × Str) :=
  files.map (fun f => (assetNs ++ assetKey f.1, mimeFor (dir ++ ('/' :: f.1)) ++ (';' :: f.2)))

/-- The (namespaced key, value) writes a fully successful card upload loop
performs, in order. -/
def cardWrites (jd : Str → Option Str) (files : List (Str × Str)) : List (Str × Str) :=
  files.map (fun f => (cardNs ++ cardKey f.1, (jd f.2).getD []))

/-- The extension of the file named by the relative path `p`: the part of its
final path component after the last dot, or `none` when the component has no
dot. -/
def fileExt? (p : Str) : Option Str :=
  if '.' ∈ afterLast '/' p then some (afterLast '.' (afterLast '/' p)) else none

/-- The mimetype as the specification words it: determined by the file's
extension, defaulting to `text/plain` for an unrecognized or absent
extension. -/
def specMime (p : Str) : Str :=
  match fileExt? p with
  | some e => (lookupKey mimetypes e).getD (("text/plain").data)
  | none => ("text/plain").data

/-- The card logical key as the claim words it: the filename with its (final)
extension stripped and all directory components ignored. -/
def specCardKey (p : Str) : Str :=
  if '.' ∈ afterLast '/' p then (upToLast '.' (afterLast '/' p)).dropLast
  else afterLast '/' p

theorem takeWhile_append_all {α : Type} (p : α → Bool) (a b : List α)
    (h : ∀ x ∈ a, p x = true) : (a ++ b).takeWhile p = a ++ b.takeWhile p := by
  induction a with
  | nil => simp
  | cons x xs ih =>
    rw [List.cons_append, List.takeWhile_cons_of_pos (h x (List.mem_cons_self x xs)),
      ih (fun y hy => h y (List.mem_cons_of_mem x hy)), List.cons_append]

theorem takeWhile_append_stop {α : Type} (p : α → Bool) (a b : List α) (x : α)
    (hx : x ∈ a) (hpx : p x = false) : (a ++ b).takeWhile p = a.takeWhile p := by
  induction a with
  | nil => cases hx
  | cons y ys ih =>
    rcases List.mem_cons.mp hx with rfl | hx'
    · rw [List.cons_append, List.takeWhile_cons_of_neg (by simp [hpx]),
        List.takeWhile_cons_of_neg (by simp [hpx])]
    · by_cases hy : p y = true
      · rw [List.cons_append, List.takeWhile_cons_of_pos hy, List.takeWhile_cons_of_pos hy,
          ih hx']
      · rw [List.cons_append, List.takeWhile_cons_of_neg (by simpa using hy),
          List.takeWhile_cons_of_neg (by simpa using hy)]

theorem afterLast_append_of_mem (c : Char) (a b : Str) (h : c ∈ b) :
    afterLast c (a ++ b) = afterLast c b := by
  unfold afterLast
  rw [List.reverse_append,
    takeWhile_append_stop _ _ _ c (List.mem_reverse.mpr h) (by simp)]

theorem afterLast_append_of_not_mem (c : Char) (a b : Str) (h : ¬ c ∈ b) :
    afterLast c (a ++ b) = afterLast c a ++ b := by
  unfold afterLast
  rw [List.reverse_append,
    takeWhile_append_all _ _ _ (fun x hx => by
      simp only [decide_eq_true_eq]
      exact fun hxc => h (hxc ▸ List.mem_reverse.mp hx)),
    List.reverse_append, List.reverse_reverse]

theorem upToLast_append_afterLast (c : Char) (l : Str) :
    upToLast c l ++ afterLast c l = l := by
  unfold upToLast afterLast
  rw [← List.reverse_append, List.takeWhile_append_dropWhile, List.reverse_reverse]

theorem dropWhile_ne_shape (c : Char) (r : Str) :
    r.dropWhile (fun x => ¬ x = c) = [] ∨
      ∃ t, r.dropWhile (fun x => ¬ x = c) = c :: t := by
  induction r with
  | nil => exact Or.inl rfl
  | cons y ys ih =>
    by_cases hy : y = c
    · subst hy
      exact Or.inr ⟨ys, by simp [List.dropWhile_cons]⟩
    · simpa [List.dropWhile_cons, hy] using ih

theorem upToLast_shape (c : Char) (l : Str) :
    upToLast c l = [] ∨ ∃ b, upToLast c l = b ++ [c] := by
  rcases dropWhile_ne_shape c l.reverse with h | ⟨t, h⟩
  · left
    unfold upToLast
    rw [h]
    rfl
  · right
    exact ⟨t.reverse, by unfold upToLast; rw [h]; simp⟩

theorem afterLast_no (c : Char) (l : Str) (x : Char) (hx : x ∈ afterLast c l) : ¬ x = c := by
  unfold afterLast at hx
  have := List.mem_takeWhile_imp (List.mem_reverse.mp hx)
  simpa using this

theorem lookupKey_nil {α : Type} (k : Str) : lookupKey ([] : List (Str × α)) k = none := rfl

theorem lookupKey_cons {α : Type} (e : Str × α) (rest : List (Str × α)) (k : Str) :
    lookupKey (e :: rest) k = if e.1 = k then some e.2 else lookupKey rest k := rfl

theorem keysOf_nil {α : Type} : keysOf ([] : List (Str × α)) = [] := rfl

theorem keysOf_cons {α : Type} (e : Str × α) (rest : List (Str × α)) :
    keysOf (e :: rest) = e.1 :: keysOf rest := rfl

theorem lookupKey_eq_none_iff {α : Type} (m : List (Str × α)) (k : Str) :
    lookupKey m k = none ↔ ¬ k ∈ keysOf m := by
  induction m with
  | nil =>
    rw [lookupKey_nil, keysOf_nil]
    simp only [List.not_mem_nil, not_false_iff, iff_true]
  | cons e rest ih =>
    rw [lookupKey_cons, keysOf_cons]
    by_cases he : e.1 = k
    · rw [if_pos he]
      simp only [List.mem_cons]
      constructor
      · intro h
        cases h
      · intro h
        exact absurd (Or.inl he.symm) h
    · rw [if_neg he, ih]
      simp only [List.mem_cons]
      constructor
      · intro h hk
        rcases hk with hk | hk
        · exact he hk.symm
        · exact h hk
      · intro h hk
        exact h (Or.inr hk)

theorem lookupKey_isSome_of_mem {α : Type} (m : List (Str × α)) (k : Str)
    (h : k ∈ keysOf m) : (lookupKey m k).isSome = true := by
  cases hl : lookupKey m k with
  | none => exact absurd h ((lookupKey_eq_none_iff m k).mp hl)
  | some v => rfl

theorem setKey_nil {α : Type} (k : Str) (v : α) : setKey [] k v = [(k, v)] := rfl

theorem setKey_cons {α : Type} (e : Str × α) (rest : List (Str × α)) (k : Str) (v : α) :
    setKey (e :: rest) k v = if e.1 = k then (k, v) :: rest else e :: setKey rest k v := rfl

theorem lookupKey_setKey_self {α : Type} (m : List (Str × α)) (k : Str) (v : α) :
    lookupKey (setKey m k v) k = some v := by
  induction m with
  | nil => rw [setKey_nil, lookupKey_cons, if_pos rfl]
  | cons e rest ih =>
    rw [setKey_cons]
    by_cases he : e.1 = k
    · rw [if_pos he, lookupKey_cons, if_pos rfl]
    · rw [if_neg he, lookupKey_cons, if_neg he, ih]

theorem lookupKey_setKey_ne {α : Type} (m : List (Str × α)) (k k' : Str) (v : α)
    (h : ¬ k' = k) : lookupKey (setKey m k v) k' = lookupKey m k' := by
  have h' : ¬ k = k' := fun hh => h hh.symm
  induction m with
  | nil => rw [setKey_nil, lookupKey_cons, if_neg h', lookupKey_nil]
  | cons e rest ih =>
    rw [setKey_cons]
    by_cases he : e.1 = k
    · rw [if_pos he, lookupKey_cons, lookupKey_cons, if_neg h']
      have hek : ¬ e.1 = k' := by rw [he]; exact h'
      rw [if_neg hek]
    · rw [if_neg he, lookupKey_cons, lookupKey_cons, ih]

theorem lookupKey_filter {α : Type} (q : Str → Bool) (m : List (Str × α)) (k : Str) :
    lookupKey (m.filter (fun e => q e.1)) k =
      if q k = true then lookupKey m k else none := by
  induction m with
  | nil =>
    rw [List.filter_nil, lookupKey_nil]
    by_cases hq : q k = true
    · rw [if_pos hq]
    · rw [if_neg hq]
  | cons e rest ih =>
    rw [List.filter_cons]
    by_cases hq : q e.1 = true
    · rw [if_pos hq, lookupKey_cons, lookupKey_cons]
      by_cases he : e.1 = k
      · rw [if_pos he, if_pos he, if_pos (he ▸ hq)]
      · rw [if_neg he, if_neg he, ih]
    · rw [if_neg hq, ih]
      by_cases he : e.1 = k
      · have hqk : ¬ q k = true := by rw [← he]; exact hq
        rw [if_neg hqk, if_neg hqk]
      · by_cases hqk : q k = true
        · rw [if_pos hqk, if_pos hqk, lookupKey_cons, if_neg he]
        · rw [if_neg hqk, if_neg hqk]

theorem keysOf_setKey {α : Type} (m : List (Str × α)) (k : Str) (v : α) :
    keysOf (setKey m k v) =
      if k ∈ keysOf m then keysOf m else keysOf m ++ [k] := by
  induction m with
  | nil =>
    rw [setKey_nil, keysOf_cons, keysOf_nil, if_neg (List.not_mem_nil k)]
    rfl
  | cons e rest ih =>
    rw [setKey_cons, keysOf_cons]
    by_cases he : e.1 = k
    · rw [if_pos he, keysOf_cons, if_pos (by rw [he]; exact List.mem_cons_self k (keysOf rest))]
      rw [he]
    · rw [if_neg he, keysOf_cons, ih]
      have hne : ¬ k = e.1 := fun hh => he hh.symm
      by_cases hk : k ∈ keysOf rest
      · rw [if_pos hk, if_pos (List.mem_cons_of_mem e.1 hk)]
      · rw [if_neg hk, if_neg (by
          intro hmem
          rcases List.mem_cons.mp hmem with hh | hh
          · exact hne hh
          · exact hk hh)]
        rw [List.cons_append]

theorem nodup_keysOf_setKey {α : Type} (m : List (Str × α)) (k : Str) (v : α)
    (h : (keysOf m).Nodup) : (keysOf (setKey m k v)).Nodup := by
  rw [keysOf_setKey]
  by_cases hk : k ∈ keysOf m
  · rw [if_pos hk]
    exact h
  · rw [if_neg hk]
    rw [List.nodup_append]
    exact ⟨h, List.nodup_singleton k, by
      intro a ha hb
      rw [List.mem_singleton] at hb
      exact hk (hb ▸ ha)⟩

theorem assoc_ext {α : Type} (m₁ : List (Str × α)) : ∀ m₂ : List (Str × α),
    (keysOf m₁).Nodup → keysOf m₁ = keysOf m₂ →
    (∀ k, lookupKey m₁ k = lookupKey m₂ k) → m₁ = m₂ := by
  induction m₁ with
  | nil =>
    intro m₂ _ hk _
    cases m₂ with
    | nil => rfl
    | cons e r =>
      rw [keysOf_nil, keysOf_cons] at hk
      cases hk
  | cons e₁ r₁ ih =>
    intro m₂ hnd hk hl
    cases m₂ with
    | nil =>
      rw [keysOf_cons, keysOf_nil] at hk
      cases hk
    | cons e₂ r₂ =>
      rw [keysOf_cons, keysOf_cons] at hk
      have hk1 : e₁.1 = e₂.1 := (List.cons.injEq _ _ _ _ ▸ hk).1
      have hk2 : keysOf r₁ = keysOf r₂ := (List.cons.injEq _ _ _ _ ▸ hk).2
      rw [keysOf_cons, List.nodup_cons] at hnd
      obtain ⟨hmem, hnd'⟩ := hnd
      have hv : e₁.2 = e₂.2 := by
        have h := hl e₁.1
        rw [lookupKey_cons, if_pos rfl, lookupKey_cons, if_pos hk1.symm] at h
        exact Option.some.inj h
      have hl' : ∀ k, lookupKey r₁ k = lookupKey r₂ k := by
        intro k
        by_cases hke : k = e₁.1
        · rw [hke, (lookupKey_eq_none_iff r₁ e₁.1).mpr hmem,
            (lookupKey_eq_none_iff r₂ e₁.1).mpr (hk2 ▸ hmem)]
        · have hke' : ¬ e₁.1 = k := fun hh => hke hh.symm
          have hke2 : ¬ e₂.1 = k := hk1 ▸ hke'
          have h := hl k
          rw [lookupKey_cons, if_neg hke', lookupKey_cons, if_neg hke2] at h
          exact h
      have ht := ih r₂ hnd' hk2 hl'
      cases e₁ with
      | mk a₁ b₁ =>
        cases e₂ with
        | mk a₂ b₂ =>
          simp only at hk1 hv
          rw [hk1, hv, ht]

theorem applySets_nil {α : Type} (m : List (Str × α)) : applySets m [] = m := rfl

theorem applySets_cons {α : Type} (m : List (Str × α)) (p : Str × α) (ps : List (Str × α)) :
    applySets m (p :: ps) = applySets (setKey m p.1 p.2) ps := rfl

theorem finalVal_nil {α : Type} (k : Str) : finalVal ([] : List (Str × α)) k = none := rfl

theorem finalVal_cons {α : Type} (p : Str × α) (ps : List (Str × α)) (k : Str) :
    finalVal (p :: ps) k =
      match finalVal ps k with
      | some v => some v
      | none => if p.1 = k then some p.2 else none := rfl

theorem lookupKey_applySets {α : Type} (ps : List (Str × α)) :
    ∀ (m : List (Str × α)) (k : Str),
    lookupKey (applySets m ps) k =
      match finalVal ps k with
      | some v => some v
      | none => lookupKey m k := by
  induction ps with
  | nil =>
    intro m k
    rw [applySets_nil, finalVal_nil]
  | cons p ps ih =>
    intro m k
    rw [applySets_cons, finalVal_cons, ih]
    cases hf : finalVal ps k with
    | some v => rfl
    | none =>
      by_cases hp : p.1 = k
      · rw [if_pos hp, ← hp, lookupKey_setKey_self]
      · rw [if_neg hp]
        exact lookupKey_setKey_ne m p.1 k p.2 (fun hh => hp hh.symm)

theorem addKeys_nil {α : Type} (K : List Str) : addKeys K ([] : List (Str × α)) = K := rfl

theorem addKeys_cons {α : Type} (K : List Str) (p : Str × α) (ps : List (Str × α)) :
    addKeys K (p :: ps) = addKeys (if p.1 ∈ K then K else K ++ [p.1]) ps := rfl

theorem keysOf_applySets {α : Type} (ps : List (Str × α)) : ∀ m : List (Str × α),
    keysOf (applySets m ps) = addKeys (keysOf m) ps := by
  induction ps with
  | nil =>
    intro m
    rw [applySets_nil, addKeys_nil]
  | cons p ps ih =>
    intro m
    rw [applySets_cons, addKeys_cons, ih, keysOf_setKey]

theorem addKeys_shape {α : Type} (ps : List (Str × α)) : ∀ K : List Str,
    ∃ N, addKeys K ps = K ++ N ∧ ∀ x ∈ N, x ∈ keysOf ps := by
  induction ps with
  | nil =>
    intro K
    exact ⟨[], by rw [addKeys_nil, List.append_nil], fun x hx => absurd hx (List.not_mem_nil x)⟩
  | cons p ps ih =>
    intro K
    rw [addKeys_cons]
    by_cases hp : p.1 ∈ K
    · rw [if_pos hp]
      obtain ⟨N, hN, hmem⟩ := ih K
      exact ⟨N, hN, fun x hx => by rw [keysOf_cons]; exact List.mem_cons_of_mem _ (hmem x hx)⟩
    · rw [if_neg hp]
      obtain ⟨N, hN, hmem⟩ := ih (K ++ [p.1])
      refine ⟨[p.1] ++ N, ?_, ?_⟩
      · rw [hN, List.append_assoc]
      · intro x hx
        rw [keysOf_cons]
        rcases List.mem_append.mp hx with hx | hx
        · rw [List.mem_singleton] at hx
          rw [hx]
          exact List.mem_cons_self _ _
        · exact List.mem_cons_of_mem _ (hmem x hx)

theorem mem_addKeys_of_mem_base {α : Type} (ps : List (Str × α)) (K : List Str) (x : Str)
    (h : x ∈ K) : x ∈ addKeys K ps := by
  obtain ⟨N, hN, _⟩ := addKeys_shape ps K
  rw [hN]
  exact List.mem_append_left N h

theorem mem_addKeys_of_mem_keys {α : Type} (ps : List (Str × α)) : ∀ (K : List Str)
    (p : Str × α), p ∈ ps → p.1 ∈ addKeys K ps := by
  induction ps with
  | nil =>
    intro K p hp
    cases hp
  | cons q ps ih =>
    intro K p hp
    rw [addKeys_cons]
    rcases List.mem_cons.mp hp with rfl | hp'
    · apply mem_addKeys_of_mem_base
      by_cases hq : p.1 ∈ K
      · rw [if_pos hq]
        exact hq
      · rw [if_neg hq]
        exact List.mem_append_right K (List.mem_singleton_self _)
    · exact ih _ p hp'

theorem addKeys_eq_of_subset {α : Type} (ps : List (Str × α)) : ∀ K : List Str,
    (∀ p ∈ ps, p.1 ∈ K) → addKeys K ps = K := by
  induction ps with
  | nil =>
    intro K _
    rw [addKeys_nil]
  | cons p ps ih =>
    intro K h
    rw [addKeys_cons, if_pos (h p (List.mem_cons_self p ps))]
    exact ih K (fun q hq => h q (List.mem_cons_of_mem p hq))

theorem nodup_addKeys {α : Type} (ps : List (Str × α)) : ∀ K : List Str,
    K.Nodup → (addKeys K ps).Nodup := by
  induction ps with
  | nil =>
    intro K h
    rw [addKeys_nil]
    exact h
  | cons p ps ih =>
    intro K h
    rw [addKeys_cons]
    by_cases hp : p.1 ∈ K
    · rw [if_pos hp]
      exact ih K h
    · rw [if_neg hp]
      refine ih _ ?_
      rw [List.nodup_append]
      exact ⟨h, List.nodup_singleton _, fun a ha hb => hp ((List.mem_singleton.mp hb) ▸ ha)⟩

theorem eraseList_nil (R : List Str) : eraseList R [] = R := rfl

theorem eraseList_cons (R : List Str) (l : Str) (L : List Str) :
    eraseList R (l :: L) = eraseList (R.erase l) L := rfl

theorem mem_eraseList (L : List Str) : ∀ (R : List Str) (x : Str),
    x ∈ R → ¬ x ∈ L → x ∈ eraseList R L := by
  induction L with
  | nil =>
    intro R x h _
    exact h
  | cons l L ih =>
    intro R x h hx
    rw [eraseList_cons]
    refine ih _ x ?_ (fun hh => hx (List.mem_cons_of_mem l hh))
    exact (List.mem_erase_of_ne
      (fun hh => hx (by rw [hh]; exact List.mem_cons_self l L))).mpr h

theorem eraseList_eq_filter (L : List Str) : ∀ R : List Str, R.Nodup →
    eraseList R L = R.filter (fun x => ¬ x ∈ L) := by
  induction L with
  | nil =>
    intro R _
    rw [eraseList_nil]
    exact (List.filter_eq_self.mpr (fun a _ => by simp)).symm
  | cons l L ih =>
    intro R hR
    rw [eraseList_cons, hR.erase_eq_filter l, ih _ (hR.filter _), List.filter_filter]
    apply List.filter_congr
    intro x hx
    by_cases h1 : x = l <;> by_cases h2 : x ∈ L <;> simp [h1, h2]

theorem remoteKeys_mem (s : RedisState) (pre k : Str)
    (hk : k ∈ keysOf s.store) (hp : pre.isPrefixOf k = true) :
    k.drop pre.length ∈ remoteKeys s pre := by
  unfold remoteKeys
  exact List.mem_map_of_mem _ (List.mem_filter.mpr ⟨hk, hp⟩)

theorem remoteKeys_decompose (s : RedisState) (pre r : Str)
    (h : r ∈ remoteKeys s pre) : (pre ++ r) ∈ keysOf s.store := by
  unfold remoteKeys at h
  obtain ⟨k, hk, hdrop⟩ := List.mem_map.mp h
  have hk1 := (List.mem_filter.mp hk).1
  have hpre : pre <+: k := by simpa using (List.mem_filter.mp hk).2
  obtain ⟨t, ht⟩ := hpre
  have hdt : k.drop pre.length = t := by rw [← ht, List.drop_left]
  rw [← hdrop, hdt, ht]
  exact hk1

theorem nodup_remoteKeys (s : RedisState) (pre : Str) (h : (keysOf s.store).Nodup) :
    (remoteKeys s pre).Nodup := by
  unfold remoteKeys
  refine List.Nodup.map_on ?_ (h.filter _)
  intro x hx y hy hxy
  have hx2 : pre <+: x := by simpa using (List.mem_filter.mp hx).2
  have hy2 : pre <+: y := by simpa using (List.mem_filter.mp hy).2
  obtain ⟨tx, htx⟩ := hx2
  obtain ⟨ty, hty⟩ := hy2
  rw [← htx, ← hty, List.drop_left, List.drop_left] at hxy
  rw [← htx, ← hty, hxy]

theorem keysOf_assetWrites (dir : Str) (files : List (Str × Str)) :
    keysOf (assetWrites dir files) = files.map (fun f => assetNs ++ assetKey f.1) := by
  unfold keysOf assetWrites
  rw [List.map_map]
  rfl

theorem keysOf_cardWrites (jd : Str → Option Str) (files : List (Str × Str)) :
    keysOf (cardWrites jd files) = files.map (fun f => cardNs ++ cardKey f.1) := by
  unfold keysOf cardWrites
  rw [List.map_map]
  rfl

theorem assetLoop_nil (dir : Str) (s : RedisState) (rem : List Str) :
    assetLoop dir s rem [] = (s, rem) := rfl

theorem assetLoop_cons (dir : Str) (s : RedisState) (rem : List Str) (p c : Str)
    (rest : List (Str × Str)) :
    assetLoop dir s rem ((p, c) :: rest) =
      assetLoop dir
        (redisPublish
          (redisSet s (assetNs ++ assetKey p) (mimeFor (dir ++ ('/' :: p)) ++ (';' :: c)))
          invalChan (assetKey p))
        (rem.erase (assetKey p)) rest := rfl

theorem assetWrites_nil (dir : Str) : assetWrites dir [] = [] := rfl

theorem assetWrites_cons (dir p c : Str) (rest : List (Str × Str)) :
    assetWrites dir ((p, c) :: rest) =
      (assetNs ++ assetKey p, mimeFor (dir ++ ('/' :: p)) ++ (';' :: c)) ::
        assetWrites dir rest := rfl

theorem assetLoop_store (dir : Str) (files : List (Str × Str)) :
    ∀ (s : RedisState) (rem : List Str),
    (assetLoop dir s rem files).1.store = applySets s.store (assetWrites dir files) := by
  induction files with
  | nil =>
    intro s rem
    rw [assetLoop_nil, assetWrites_nil, applySets_nil]
  | cons f fs ih =>
    intro s rem
    cases f with
    | mk p c =>
      rw [assetLoop_cons, ih, assetWrites_cons, applySets_cons]
      rfl

theorem assetLoop_published (dir : Str) (files : List (Str × Str)) :
    ∀ (s : RedisState) (rem : List Str),
    (assetLoop dir s rem files).1.published =
      s.published ++ files.map (fun f => (invalChan, assetKey f.1)) := by
  induction files with
  | nil =>
    intro s rem
    rw [assetLoop_nil, List.map_nil, List.append_nil]
  | cons f fs ih =>
    intro s rem
    cases f with
    | mk p c =>
      rw [assetLoop_cons, ih, List.map_cons]
      show (s.published ++ [(invalChan, assetKey p)]) ++ _ = _
      rw [List.append_assoc]
      rfl

theorem assetLoop_ttl (dir : Str) (files : List (Str × Str)) :
    ∀ (s : RedisState) (rem : List Str) (k : Str),
    lookupKey (assetLoop dir s rem files).1.ttl k =
      if k ∈ keysOf (assetWrites dir files) then none else lookupKey s.ttl k := by
  induction files with
  | nil =>
    intro s rem k
    rw [assetLoop_nil, assetWrites_nil, keysOf_nil, if_neg (List.not_mem_nil k)]
  | cons f fs ih =>
    intro s rem k
    cases f with
    | mk p c =>
      rw [assetLoop_cons, ih, assetWrites_cons, keysOf_cons]
      by_cases hk : k ∈ keysOf (assetWrites dir fs)
      · rw [if_pos hk, if_pos (List.mem_cons_of_mem _ hk)]
      · rw [if_neg hk]
        show lookupKey (s.ttl.filter _) k = _
        rw [lookupKey_filter (fun x => ¬ x = (assetNs ++ assetKey p)) s.ttl k]
        by_cases hke : k = assetNs ++ assetKey p
        · rw [if_neg (by simp [hke]), if_pos (by rw [hke]; exact List.mem_cons_self _ _)]
        · rw [if_pos (decide_eq_true hke), if_neg (by
            intro hmem
            rcases List.mem_cons.mp hmem with h | h
            · exact hke h
            · exact hk h)]

theorem assetLoop_rem (dir : Str) (files : List (Str × Str)) :
    ∀ (s : RedisState) (rem : List Str),
    (assetLoop dir s rem files).2 = eraseList rem (files.map (fun f => assetKey f.1)) := by
  induction files with
  | nil =>
    intro s rem
    rw [assetLoop_nil]
    rfl
  | cons f fs ih =>
    intro s rem
    cases f with
    | mk p c =>
      rw [assetLoop_cons, ih, List.map_cons, eraseList_cons]

theorem cardLoop_nil (jd : Str → Option Str) (s : RedisState) (rem : List Str) :
    cardLoop jd s rem [] = (s, rem, true) := rfl

theorem cardLoop_cons_none (jd : Str → Option Str) (s : RedisState) (rem : List Str)
    (p c : Str) (rest : List (Str × Str)) (hc : jd c = none) :
    cardLoop jd s rem ((p, c) :: rest) = (s, rem.erase (cardKey p), false) := by
  simp only [cardLoop, hc]

theorem cardLoop_cons_some (jd : Str → Option Str) (s : RedisState) (rem : List Str)
    (p c v : Str) (rest : List (Str × Str)) (hc : jd c = some v) :
    cardLoop jd s rem ((p, c) :: rest) =
      cardLoop jd (redisPublish (redisSet s (cardNs ++ cardKey p) v) invalChan (cardKey p))
        (rem.erase (cardKey p)) rest := by
  simp only [cardLoop, hc]

theorem cardWrites_nil (jd : Str → Option Str) : cardWrites jd [] = [] := rfl

theorem cardWrites_cons_some (jd : Str → Option Str) (p c v : Str)
    (rest : List (Str × Str)) (hc : jd c = some v) :
    cardWrites jd ((p, c) :: rest) = (cardNs ++ cardKey p, v) :: cardWrites jd rest := by
  unfold cardWrites
  rw [List.map_cons]
  show ((cardNs ++ cardKey p, (jd c).getD []) :: _) = _
  rw [hc]
  rfl

theorem cardLoop_ok (jd : Str → Option Str) (files : List (Str × Str)) :
    ∀ (s : RedisState) (rem : List Str),
    (∀ f ∈ files, (jd f.2).isSome = true) →
    (cardLoop jd s rem files).2.2 = true := by
  induction files with
  | nil =>
    intro s rem _
    rw [cardLoop_nil]
  | cons f fs ih =>
    intro s rem hall
    cases f with
    | mk p c =>
      obtain ⟨v, hv⟩ := Option.isSome_iff_exists.mp (hall (p, c) (List.mem_cons_self _ _))
      rw [cardLoop_cons_some jd s rem p c v fs hv]
      exact ih _ _ (fun g hg => hall g (List.mem_cons_of_mem _ hg))

theorem cardLoop_store (jd : Str → Option Str) (files : List (Str × Str)) :
    ∀ (s : RedisState) (rem : List Str),
    (∀ f ∈ files, (jd f.2).isSome = true) →
    (cardLoop jd s rem files).1.store = applySets s.store (cardWrites jd files) := by
  induction files with
  | nil =>
    intro s rem _
    rw [cardLoop_nil, cardWrites_nil, applySets_nil]
  | cons f fs ih =>
    intro s rem hall
    cases f with
    | mk p c =>
      obtain ⟨v, hv⟩ := Option.isSome_iff_exists.mp (hall (p, c) (List.mem_cons_self _ _))
      rw [cardLoop_cons_some jd s rem p c v fs hv,
        ih _ _ (fun g hg => hall g (List.mem_cons_of_mem _ hg)),
        cardWrites_cons_some jd p c v fs hv, applySets_cons]
      rfl

theorem cardLoop_published (jd : Str → Option Str) (files : List (Str × Str)) :
    ∀ (s : RedisState) (rem : List Str),
    (∀ f ∈ files, (jd f.2).isSome = true) →
    (cardLoop jd s rem files).1.published =
      s.published ++ files.map (fun f => (invalChan, cardKey f.1)) := by
  induction files with
  | nil =>
    intro s rem _
    rw [cardLoop_nil, List.map_nil, List.append_nil]
  | cons f fs ih =>
    intro s rem hall
    cases f with
    | mk p c =>
      obtain ⟨v, hv⟩ := Option.isSome_iff_exists.mp (hall (p, c) (List.mem_cons_self _ _))
      rw [cardLoop_cons_some jd s rem p c v fs hv,
        ih _ _ (fun g hg => hall g (List.mem_cons_of_mem _ hg)), List.map_cons]
      show (s.published ++ [(invalChan, cardKey p)]) ++ _ = _
      rw [List.append_assoc]
      rfl

theorem cardLoop_ttl (jd : Str → Option Str) (files : List (Str × Str)) :
    ∀ (s : RedisState) (rem : List Str) (k : Str),
    (∀ f ∈ files, (jd f.2).isSome = true) →
    lookupKey (cardLoop jd s rem files).1.ttl k =
      if k ∈ keysOf (cardWrites jd files) then none else lookupKey s.ttl k := by
  induction files with
  | nil =>
    intro s rem k _
    rw [cardLoop_nil, cardWrites_nil, keysOf_nil, if_neg (List.not_mem_nil k)]
  | cons f fs ih =>
    intro s rem k hall
    cases f with
    | mk p c =>
      obtain ⟨v, hv⟩ := Option.isSome_iff_exists.mp (hall (p, c) (List.mem_cons_self _ _))
      rw [cardLoop_cons_some jd s rem p c v fs hv,
        ih _ _ k (fun g hg => hall g (List.mem_cons_of_mem _ hg)),
        cardWrites_cons_some jd p c v fs hv, keysOf_cons]
      by_cases hk : k ∈ keysOf (cardWrites jd fs)
      · rw [if_pos hk, if_pos (List.mem_cons_of_mem _ hk)]
      · rw [if_neg hk]
        show lookupKey (s.ttl.filter _) k = _
        rw [lookupKey_filter (fun x => ¬ x = (cardNs ++ cardKey p)) s.ttl k]
        by_cases hke : k = cardNs ++ cardKey p
        · rw [if_neg (by simp [hke]), if_pos (by rw [hke]; exact List.mem_cons_self _ _)]
        · rw [if_pos (decide_eq_true hke), if_neg (by
            intro hmem
            rcases List.mem_cons.mp hmem with h | h
            · exact hke h
            · exact hk h)]

theorem cardLoop_rem (jd : Str → Option Str) (files : List (Str × Str)) :
    ∀ (s : RedisState) (rem : List Str),
    (∀ f ∈ files, (jd f.2).isSome = true) →
    (cardLoop jd s rem files).2.1 = eraseList rem (files.map (fun f => cardKey f.1)) := by
  induction files with
  | nil =>
    intro s rem _
    rw [cardLoop_nil]
    rfl
  | cons f fs ih =>
    intro s rem hall
    cases f with
    | mk p c =>
      obtain ⟨v, hv⟩ := Option.isSome_iff_exists.mp (hall (p, c) (List.mem_cons_self _ _))
      rw [cardLoop_cons_some jd s rem p c v fs hv,
        ih _ _ (fun g hg => hall g (List.mem_cons_of_mem _ hg)), List.map_cons,
        eraseList_cons]

theorem cardLoop_abort (jd : Str → Option Str) (good : List (Str × Str)) :
    ∀ (s : RedisState) (rem : List Str) (pb cb : Str) (rest : List (Str × Str)),
    (∀ f ∈ good, (jd f.2).isSome = true) → jd cb = none →
    cardLoop jd s rem (good ++ (pb, cb) :: rest) =
      ((cardLoop jd s rem good).1,
        ((cardLoop jd s rem good).2.1).erase (cardKey pb), false) := by
  induction good with
  | nil =>
    intro s rem pb cb rest _ hbad
    rw [List.nil_append, cardLoop_cons_none jd s rem pb cb rest hbad, cardLoop_nil]
  | cons f fs ih =>
    intro s rem pb cb rest hall hbad
    cases f with
    | mk p c =>
      obtain ⟨v, hv⟩ := Option.isSome_iff_exists.mp (hall (p, c) (List.mem_cons_self _ _))
      rw [List.cons_append, cardLoop_cons_some jd s rem p c v _ hv,
        cardLoop_cons_some jd s rem p c v fs hv,
        ih _ _ pb cb rest (fun g hg => hall g (List.mem_cons_of_mem _ hg)) hbad]

theorem expireLoop_nil (pre : Str) (s : RedisState) : expireLoop pre s [] = s := rfl

theorem expireLoop_cons (pre : Str) (s : RedisState) (r : Str) (rem : List Str) :
    expireLoop pre s (r :: rem) =
      expireLoop pre (redisExpire s (pre ++ r) (60 * 60 * 24)) rem := rfl

theorem redisExpire_store (s : RedisState) (k : Str) (t : Nat) :
    (redisExpire s k t).store = s.store := by
  unfold redisExpire
  split <;> rfl

theorem redisExpire_published (s : RedisState) (k : Str) (t : Nat) :
    (redisExpire s k t).published = s.published := by
  unfold redisExpire
  split <;> rfl

theorem expireLoop_store (pre : Str) (rem : List Str) : ∀ s : RedisState,
    (expireLoop pre s rem).store = s.store := by
  induction rem with
  | nil =>
    intro s
    rw [expireLoop_nil]
  | cons r rem ih =>
    intro s
    rw [expireLoop_cons, ih, redisExpire_store]

theorem expireLoop_published (pre : Str) (rem : List Str) : ∀ s : RedisState,
    (expireLoop pre s rem).published = s.published := by
  induction rem with
  | nil =>
    intro s
    rw [expireLoop_nil]
  | cons r rem ih =>
    intro s
    rw [expireLoop_cons, ih, redisExpire_published]

theorem expireLoop_ttl_not_mem (pre : Str) (rem : List Str) : ∀ (s : RedisState) (k : Str),
    (∀ r ∈ rem, ¬ pre ++ r = k) →
    lookupKey (expireLoop pre s rem).ttl k = lookupKey s.ttl k := by
  induction rem with
  | nil =>
    intro s k _
    rw [expireLoop_nil]
  | cons r rem ih =>
    intro s k h
    rw [expireLoop_cons, ih _ k (fun x hx => h x (List.mem_cons_of_mem r hx))]
    unfold redisExpire
    split
    · show lookupKey (setKey s.ttl (pre ++ r) _) k = _
      exact lookupKey_setKey_ne s.ttl (pre ++ r) k _
        (fun hh => h r (List.mem_cons_self r rem) hh.symm)
    · rfl

theorem expireLoop_ttl_keep (pre : Str) (rem : List Str) : ∀ (s : RedisState) (k : Str),
    lookupKey s.ttl k = some (60 * 60 * 24) →
    lookupKey (expireLoop pre s rem).ttl k = some (60 * 60 * 24) := by
  induction rem with
  | nil =>
    intro s k h
    rw [expireLoop_nil]
    exact h
  | cons r rem ih =>
    intro s k h
    rw [expireLoop_cons]
    refine ih _ k ?_
    unfold redisExpire
    split
    · show lookupKey (setKey s.ttl (pre ++ r) _) k = _
      by_cases he : k = pre ++ r
      · rw [he, lookupKey_setKey_self]
      · rw [lookupKey_setKey_ne s.ttl (pre ++ r) k _ he]
        exact h
    · exact h

theorem expireLoop_ttl_mem (pre : Str) (rem : List Str) : ∀ (s : RedisState) (r : Str),
    r ∈ rem → (lookupKey s.store (pre ++ r)).isSome = true →
    lookupKey (expireLoop pre s rem).ttl (pre ++ r) = some (60 * 60 * 24) := by
  induction rem with
  | nil =>
    intro s r hr _
    cases hr
  | cons r₀ rem ih =>
    intro s r hr hsome
    rw [expireLoop_cons]
    by_cases he : pre ++ r₀ = pre ++ r
    · apply expireLoop_ttl_keep
      unfold redisExpire
      rw [he, if_pos hsome]
      exact lookupKey_setKey_self s.ttl (pre ++ r) _
    · rcases List.mem_cons.mp hr with rfl | hr'
      · exact absurd rfl he
      · refine ih _ r hr' ?_
        rw [redisExpire_store]
        exact hsome

theorem finalVal_append {α : Type} (A : List (Str × α)) :
    ∀ (B : List (Str × α)) (k : Str),
    finalVal (A ++ B) k =
      match finalVal B k with
      | some v => some v
      | none => finalVal A k := by
  induction A with
  | nil =>
    intro B k
    rw [List.nil_append, finalVal_nil]
    cases finalVal B k <;> rfl
  | cons a A ih =>
    intro B k
    rw [List.cons_append, finalVal_cons, ih, finalVal_cons]
    cases finalVal B k with
    | some v => rfl
    | none => rfl

theorem finalVal_eq_none {α : Type} (ps : List (Str × α)) (k : Str)
    (h : ∀ p ∈ ps, ¬ p.1 = k) : finalVal ps k = none := by
  induction ps with
  | nil => rfl
  | cons p ps ih =>
    rw [finalVal_cons, ih (fun q hq => h q (List.mem_cons_of_mem p hq)),
      if_neg (h p (List.mem_cons_self p ps))]

theorem finalVal_last {α : Type} (A : List (Str × α)) (w : Str × α) (B : List (Str × α))
    (k : Str) (hk : w.1 = k) (hB : ∀ p ∈ B, ¬ p.1 = k) :
    finalVal (A ++ w :: B) k = some w.2 := by
  rw [finalVal_append, finalVal_cons, finalVal_eq_none B k hB, if_pos hk]

theorem syncAssets_store (dir : Str) (files : List (Str × Str)) (s : RedisState) :
    (syncAssets dir files s).store = applySets s.store (assetWrites dir files) := by
  simp only [syncAssets]
  rw [expireLoop_store, assetLoop_store]

theorem syncAssets_published (dir : Str) (files : List (Str × Str)) (s : RedisState) :
    (syncAssets dir files s).published =
      s.published ++ files.map (fun f => (invalChan, assetKey f.1)) := by
  simp only [syncAssets]
  rw [expireLoop_published, assetLoop_published]

theorem assetExpired_eq (dir : Str) (files : List (Str × Str)) (s : RedisState) :
    assetExpired dir files s =
      eraseList (remoteKeys s assetNs) (files.map (fun f => assetKey f.1)) := by
  simp only [assetExpired]
  rw [assetLoop_rem]

theorem assetWrites_append (dir : Str) (l₁ l₂ : List (Str × Str)) :
    assetWrites dir (l₁ ++ l₂) = assetWrites dir l₁ ++ assetWrites dir l₂ := by
  unfold assetWrites
  rw [List.map_append]

theorem mem_assetWrites (dir : Str) (files : List (Str × Str)) (p : Str × Str)
    (hp : p ∈ assetWrites dir files) :
    ∃ g ∈ files, p = (assetNs ++ assetKey g.1, mimeFor (dir ++ ('/' :: g.1)) ++ (';' :: g.2)) := by
  unfold assetWrites at hp
  obtain ⟨g, hg, he⟩ := List.mem_map.mp hp
  exact ⟨g, hg, he.symm⟩

theorem syncAssets_lookup_last (dir : Str) (l₁ l₂ : List (Str × Str)) (f : Str × Str)
    (s : RedisState) (hlast : ∀ g ∈ l₂, ¬ assetKey g.1 = assetKey f.1) :
    lookupKey (syncAssets dir (l₁ ++ f :: l₂) s).store (assetNs ++ assetKey f.1) =
      some (mimeFor (dir ++ ('/' :: f.1)) ++ (';' :: f.2)) := by
  rw [syncAssets_store, lookupKey_applySets]
  have hw : assetWrites dir (l₁ ++ f :: l₂) =
      assetWrites dir l₁ ++
        (assetNs ++ assetKey f.1, mimeFor (dir ++ ('/' :: f.1)) ++ (';' :: f.2)) ::
          assetWrites dir l₂ := by
    rw [assetWrites_append]
    rfl
  rw [hw, finalVal_last _ _ _ _ rfl ?_]
  intro p hp hh
  obtain ⟨g, hg, he⟩ := mem_assetWrites dir l₂ p hp
  rw [he] at hh
  exact hlast g hg (List.append_cancel_left hh)

theorem syncCards_store (jd : Str → Option Str) (files : List (Str × Str)) (s : RedisState)
    (hall : ∀ f ∈ files, (jd f.2).isSome = true) :
    (syncCards jd files s).1.store = applySets s.store (cardWrites jd files) := by
  simp only [syncCards]
  rw [cardLoop_ok jd files s (remoteKeys s cardNs) hall, if_pos rfl]
  rw [expireLoop_store, cardLoop_store jd files s (remoteKeys s cardNs) hall]

theorem syncCards_published (jd : Str → Option Str) (files : List (Str × Str))
    (s : RedisState) (hall : ∀ f ∈ files, (jd f.2).isSome = true) :
    (syncCards jd files s).1.published =
      s.published ++ files.map (fun f => (invalChan, cardKey f.1)) := by
  simp only [syncCards]
  rw [cardLoop_ok jd files s (remoteKeys s cardNs) hall, if_pos rfl]
  rw [expireLoop_published, cardLoop_published jd files s (remoteKeys s cardNs) hall]

theorem cardExpired_eq (jd : Str → Option Str) (files : List (Str × Str)) (s : RedisState)
    (hall : ∀ f ∈ files, (jd f.2).isSome = true) :
    cardExpired jd files s =
      eraseList (remoteKeys s cardNs) (files.map (fun f => cardKey f.1)) := by
  simp only [cardExpired]
  rw [cardLoop_rem jd files s (remoteKeys s cardNs) hall]

theorem cardWrites_append (jd : Str → Option Str) (l₁ l₂ : List (Str × Str)) :
    cardWrites jd (l₁ ++ l₂) = cardWrites jd l₁ ++ cardWrites jd l₂ := by
  unfold cardWrites
  rw [List.map_append]

theorem mem_cardWrites (jd : Str → Option Str) (files : List (Str × Str)) (p : Str × Str)
    (hp : p ∈ cardWrites jd files) :
    ∃ g ∈ files, p = (cardNs ++ cardKey g.1, (jd g.2).getD []) := by
  unfold cardWrites at hp
  obtain ⟨g, hg, he⟩ := List.mem_map.mp hp
  exact ⟨g, hg, he.symm⟩

theorem syncCards_lookup_last (jd : Str → Option Str) (l₁ l₂ : List (Str × Str))
    (f : Str × Str) (v : Str) (s : RedisState)
    (hall : ∀ g ∈ l₁ ++ f :: l₂, (jd g.2).isSome = true)
    (hlast : ∀ g ∈ l₂, ¬ cardKey g.1 = cardKey f.1) (hv : jd f.2 = some v) :
    lookupKey (syncCards jd (l₁ ++ f :: l₂) s).1.store (cardNs ++ cardKey f.1) = some v := by
  rw [syncCards_store jd _ s hall, lookupKey_applySets]
  have hw : cardWrites jd (l₁ ++ f :: l₂) =
      cardWrites jd l₁ ++ (cardNs ++ cardKey f.1, v) :: cardWrites jd l₂ := by
    rw [cardWrites_append]
    have : cardWrites jd (f :: l₂) = (cardNs ++ cardKey f.1, v) :: cardWrites jd l₂ :=
      cardWrites_cons_some jd f.1 f.2 v l₂ hv
    rw [this]
  rw [hw, finalVal_last _ _ _ _ rfl ?_]
  intro p hp hh
  obtain ⟨g, hg, he⟩ := mem_cardWrites jd l₂ p hp
  rw [he] at hh
  exact hlast g hg (List.append_cancel_left hh)

theorem syncAssets_stale (dir : Str) (files : List (Str × Str)) (s : RedisState) (k : Str)
    (hk : k ∈ keysOf s.store) (hp : assetNs.isPrefixOf k = true)
    (hout : ¬ k.drop assetNs.length ∈ files.map (fun f => assetKey f.1)) :
    lookupKey (syncAssets dir files s).store k = lookupKey s.store k ∧
    lookupKey (syncAssets dir files s).ttl k = some (60 * 60 * 24) := by
  have hdec : assetNs ++ k.drop assetNs.length = k := by
    have hpre : assetNs <+: k := by simpa using hp
    obtain ⟨t, ht⟩ := hpre
    have : k.drop assetNs.length = t := by rw [← ht, List.drop_left]
    rw [this, ht]
  have hnone : finalVal (assetWrites dir files) k = none := by
    apply finalVal_eq_none
    intro p hp' hh
    obtain ⟨g, hg, he⟩ := mem_assetWrites dir files p hp'
    rw [he] at hh
    apply hout
    rw [← hh, List.drop_left]
    exact List.mem_map_of_mem _ hg
  have hstore : lookupKey (syncAssets dir files s).store k = lookupKey s.store k := by
    rw [syncAssets_store, lookupKey_applySets, hnone]
  refine ⟨hstore, ?_⟩
  have hr : k.drop assetNs.length ∈
      eraseList (remoteKeys s assetNs) (files.map (fun f => assetKey f.1)) :=
    mem_eraseList _ _ _ (remoteKeys_mem s assetNs k hk hp) hout
  simp only [syncAssets]
  rw [← hdec]
  apply expireLoop_ttl_mem
  · rw [assetLoop_rem]
    exact hr
  · rw [hdec, assetLoop_store, lookupKey_applySets, hnone]
    exact lookupKey_isSome_of_mem _ _ hk

theorem syncCards_stale (jd : Str → Option Str) (files : List (Str × Str)) (s : RedisState)
    (k : Str) (hall : ∀ f ∈ files, (jd f.2).isSome = true)
    (hk : k ∈ keysOf s.store) (hp : cardNs.isPrefixOf k = true)
    (hout : ¬ k.drop cardNs.length ∈ files.map (fun f => cardKey f.1)) :
    lookupKey (syncCards jd files s).1.store k = lookupKey s.store k ∧
    lookupKey (syncCards jd files s).1.ttl k = some (60 * 60 * 24) := by
  have hdec : cardNs ++ k.drop cardNs.length = k := by
    have hpre : cardNs <+: k := by simpa using hp
    obtain ⟨t, ht⟩ := hpre
    have : k.drop cardNs.length = t := by rw [← ht, List.drop_left]
    rw [this, ht]
  have hnone : finalVal (cardWrites jd files) k = none := by
    apply finalVal_eq_none
    intro p hp' hh
    obtain ⟨g, hg, he⟩ := mem_cardWrites jd files p hp'
    rw [he] at hh
    apply hout
    rw [← hh, List.drop_left]
    exact List.mem_map_of_mem _ hg
  have hstore : lookupKey (syncCards jd files s).1.store k = lookupKey s.store k := by
    rw [syncCards_store jd files s hall, lookupKey_applySets, hnone]
  refine ⟨hstore, ?_⟩
  have hr : k.drop cardNs.length ∈
      eraseList (remoteKeys s cardNs) (files.map (fun f => cardKey f.1)) :=
    mem_eraseList _ _ _ (remoteKeys_mem s cardNs k hk hp) hout
  simp only [syncCards]
  rw [cardLoop_ok jd files s (remoteKeys s cardNs) hall, if_pos rfl]
  rw [← hdec]
  apply expireLoop_ttl_mem
  · rw [cardLoop_rem jd files s (remoteKeys s cardNs) hall]
    exact hr
  · rw [hdec, cardLoop_store jd files s (remoteKeys s cardNs) hall, lookupKey_applySets,
      hnone]
    exact lookupKey_isSome_of_mem _ _ hk

theorem syncAssets_fresh_ttl (dir : Str) (files : List (Str × Str)) (s : RedisState)
    (hnd : (keysOf s.store).Nodup) (f : Str × Str) (hf : f ∈ files) :
    lookupKey (syncAssets dir files s).ttl (assetNs ++ assetKey f.1) = none := by
  simp only [syncAssets]
  rw [expireLoop_ttl_not_mem _ _ _ _ ?_, assetLoop_ttl,
    if_pos (by
      rw [keysOf_assetWrites]
      exact List.mem_map_of_mem _ hf)]
  intro r hr hh
  have hrf : r = assetKey f.1 := List.append_cancel_left hh
  rw [assetLoop_rem,
    eraseList_eq_filter _ _ (nodup_remoteKeys s assetNs hnd)] at hr
  have h2 := (List.mem_filter.mp hr).2
  rw [decide_eq_true_eq] at h2
  exact h2 (by rw [hrf]; exact List.mem_map_of_mem _ hf)

theorem syncCards_fresh_ttl (jd : Str → Option Str) (files : List (Str × Str))
    (s : RedisState) (hall : ∀ f ∈ files, (jd f.2).isSome = true)
    (hnd : (keysOf s.store).Nodup) (f : Str × Str) (hf : f ∈ files) :
    lookupKey (syncCards jd files s).1.ttl (cardNs ++ cardKey f.1) = none := by
  simp only [syncCards]
  rw [cardLoop_ok jd files s (remoteKeys s cardNs) hall, if_pos rfl]
  rw [expireLoop_ttl_not_mem _ _ _ _ ?_, cardLoop_ttl jd files s (remoteKeys s cardNs) _ hall,
    if_pos (by
      rw [keysOf_cardWrites]
      exact List.mem_map_of_mem _ hf)]
  intro r hr hh
  have hrf : r = cardKey f.1 := List.append_cancel_left hh
  rw [cardLoop_rem jd files s (remoteKeys s cardNs) hall,
    eraseList_eq_filter _ _ (nodup_remoteKeys s cardNs hnd)] at hr
  have h2 := (List.mem_filter.mp hr).2
  rw [decide_eq_true_eq] at h2
  exact h2 (by rw [hrf]; exact List.mem_map_of_mem _ hf)

theorem syncAssets_keysOf (dir : Str) (files : List (Str × Str)) (s : RedisState) :
    keysOf (syncAssets dir files s).store =
      addKeys (keysOf s.store) (assetWrites dir files) := by
  rw [syncAssets_store, keysOf_applySets]

theorem syncAssets_idem_store (dir : Str) (files : List (Str × Str)) (s : RedisState)
    (hnd : (keysOf s.store).Nodup) :
    (syncAssets dir files (syncAssets dir files s)).store =
      (syncAssets dir files s).store := by
  have hW : ∀ p ∈ assetWrites dir files, p.1 ∈ keysOf (syncAssets dir files s).store := by
    intro p hp
    rw [syncAssets_keysOf]
    exact mem_addKeys_of_mem_keys _ _ p hp
  have hkeys : keysOf (syncAssets dir files (syncAssets dir files s)).store =
      keysOf (syncAssets dir files s).store := by
    rw [syncAssets_keysOf, addKeys_eq_of_subset _ _ hW]
  have hnd1 : (keysOf (syncAssets dir files s).store).Nodup := by
    rw [syncAssets_keysOf]
    exact nodup_addKeys _ _ hnd
  apply assoc_ext _ _ (by rw [hkeys]; exact hnd1) hkeys
  intro k
  rw [syncAssets_store dir files (syncAssets dir files s), lookupKey_applySets]
  cases hf : finalVal (assetWrites dir files) k with
  | some v =>
    rw [syncAssets_store dir files s, lookupKey_applySets, hf]
  | none => rfl

theorem remoteKeys_syncAssets (dir : Str) (files : List (Str × Str)) (s : RedisState) :
    ∃ N, remoteKeys (syncAssets dir files s) assetNs = remoteKeys s assetNs ++ N ∧
      ∀ x ∈ N, x ∈ files.map (fun f => assetKey f.1) := by
  obtain ⟨M, hM, hMmem⟩ := addKeys_shape (assetWrites dir files) (keysOf s.store)
  refine ⟨(M.filter (fun k => assetNs.isPrefixOf k)).map (fun k => k.drop assetNs.length),
    ?_, ?_⟩
  · unfold remoteKeys
    rw [syncAssets_keysOf, hM, List.filter_append, List.map_append]
  · intro x hx
    obtain ⟨m, hm, hdrop⟩ := List.mem_map.mp hx
    have hmM := (List.mem_filter.mp hm).1
    have hmW := hMmem m hmM
    rw [keysOf_assetWrites] at hmW
    obtain ⟨g, hg, he⟩ := List.mem_map.mp hmW
    rw [← hdrop, ← he, List.drop_left]
    exact List.mem_map_of_mem _ hg

theorem syncAssets_idem_expired (dir : Str) (files : List (Str × Str)) (s : RedisState)
    (hnd : (keysOf s.store).Nodup) :
    assetExpired dir files (syncAssets dir files s) = assetExpired dir files s := by
  obtain ⟨N, hN, hNmem⟩ := remoteKeys_syncAssets dir files s
  have hnd0 : (remoteKeys s assetNs).Nodup := nodup_remoteKeys s assetNs hnd
  have hnd1 : (keysOf (syncAssets dir files s).store).Nodup := by
    rw [syncAssets_keysOf]
    exact nodup_addKeys _ _ hnd
  have hnd1r : (remoteKeys (syncAssets dir files s) assetNs).Nodup :=
    nodup_remoteKeys _ _ hnd1
  have hnil : N.filter (fun x => ¬ x ∈ files.map (fun f => assetKey f.1)) = [] :=
    List.filter_eq_nil_iff.mpr (fun x hx => by simp [hNmem x hx])
  rw [assetExpired_eq, assetExpired_eq, eraseList_eq_filter _ _ hnd1r,
    eraseList_eq_filter _ _ hnd0, hN, List.filter_append, hnil, List.append_nil]

theorem lookup_mimetypes_slash (k : Str) (h : '/' ∈ k) : lookupKey mimetypes k = none := by
  apply (lookupKey_eq_none_iff mimetypes k).mpr
  intro hk
  have hall : ∀ x ∈ keysOf mimetypes, ¬ '/' ∈ x := by decide
  exact hall k hk h

theorem mimeFor_eq_specMime (dir p : Str) : mimeFor (dir ++ ('/' :: p)) = specMime p := by
  have hsplit : upToLast '/' p ++ afterLast '/' p = p := upToLast_append_afterLast '/' p
  have hfull : dir ++ ('/' :: p) = (dir ++ ('/' :: upToLast '/' p)) ++ afterLast '/' p := by
    rw [List.append_assoc, List.cons_append, hsplit]
  by_cases hdot : '.' ∈ afterLast '/' p
  · unfold mimeFor specMime fileExt?
    rw [if_pos hdot, hfull, afterLast_append_of_mem '.' _ _ hdot]
  · unfold mimeFor specMime fileExt?
    rw [if_neg hdot, hfull, afterLast_append_of_not_mem '.' _ _ hdot]
    have hslash : '/' ∈ afterLast '.' (dir ++ ('/' :: upToLast '/' p)) := by
      rcases upToLast_shape '/' p with h0 | ⟨b, hb⟩
      · rw [h0]
        rw [show dir ++ ('/' :: ([] : Str)) = dir ++ ['/'] from rfl,
          afterLast_append_of_not_mem '.' dir ['/'] (by decide)]
        exact List.mem_append_right _ (by decide)
      · rw [hb, show dir ++ ('/' :: (b ++ ['/'])) = (dir ++ ('/' :: b)) ++ ['/'] from by
          rw [List.append_assoc, List.cons_append],
          afterLast_append_of_not_mem '.' _ ['/'] (by decide)]
        exact List.mem_append_right _ (by decide)
    rw [lookup_mimetypes_slash _ (List.mem_append_left _ hslash)]
    rfl

theorem specMime_default_of_unknown (p e : Str) (he : fileExt? p = some e)
    (hu : ¬ e ∈ keysOf mimetypes) : specMime p = ("text/plain").data := by
  unfold specMime
  rw [he]
  show (lookupKey mimetypes e).getD (("text/plain").data) = ("text/plain").data
  rw [(lookupKey_eq_none_iff mimetypes e).mpr hu]
  rfl

theorem specMime_default_of_none (p : Str) (he : fileExt? p = none) :
    specMime p = ("text/plain").data := by
  unfold specMime
  rw [he]

theorem assetKey_parent (parent : Str) :
    assetKey (parent ++ ("/index.html").data) = parent := by
  unfold assetKey
  rw [if_pos ((List.isSuffixOf_iff_suffix).mpr ⟨parent ++ ['/'], by
      rw [List.append_assoc, List.singleton_append,
        show '/' :: (("index.html").data) = ("/index.html").data from by decide]⟩),
    List.length_append,
    show (("/index.html").data).length = 11 from rfl, Nat.add_sub_cancel, List.take_left]

theorem assetKey_not_index (p : Str) (h : (("index.html").data).isSuffixOf p = false) :
    assetKey p = p := by
  unfold assetKey
  rw [if_neg (by rw [h]; exact Bool.false_ne_true)]

theorem assetKey_strip (p : Str) (h : (("index.html").data).isSuffixOf p = true) :
    assetKey p = p.take (p.length - 11) := by
  unfold assetKey
  rw [if_pos h]

theorem afterLast_concat (c : Char) (x : Str) : afterLast c (x ++ [c]) = [] := by
  unfold afterLast
  rw [List.reverse_append, show ([c] : Str).reverse = [c] from rfl, List.cons_append,
    List.takeWhile_cons_of_neg (by simp)]
  rfl

theorem cardKey_ignores_dirs (ds fn : Str) (h : ¬ '/' ∈ fn) :
    cardKey (ds ++ ('/' :: fn)) = fn.takeWhile (fun x => ¬ x = '.') := by
  unfold cardKey
  rw [show ds ++ ('/' :: fn) = (ds ++ ['/']) ++ fn from by
      rw [List.append_assoc, List.singleton_append],
    afterLast_append_of_not_mem '/' _ _ h, afterLast_concat, List.nil_append]

theorem takeWhile_stem (stem rest : Str) (h : ¬ '.' ∈ stem) :
    (stem ++ ('.' :: rest)).takeWhile (fun x => ¬ x = '.') = stem := by
  rw [takeWhile_append_all _ _ _ (fun x hx => by
      simp only [decide_eq_true_eq]
      exact fun hc => h (hc ▸ hx)),
    List.takeWhile_cons_of_neg (by simp), List.append_nil]

theorem finalVal_cardWrites_last (jd : Str → Option Str) (l₁ l₂ : List (Str × Str))
    (f : Str × Str) (v : Str) (hlast : ∀ g ∈ l₂, ¬ cardKey g.1 = cardKey f.1)
    (hv : jd f.2 = some v) :
    finalVal (cardWrites jd (l₁ ++ f :: l₂)) (cardNs ++ cardKey f.1) = some v := by
  rw [cardWrites_append, cardWrites_cons_some jd f.1 f.2 v l₂ hv,
    finalVal_last _ _ _ _ rfl ?_]
  intro p hp hh
  obtain ⟨g, hg, he⟩ := mem_cardWrites jd l₂ p hp
  rw [he] at hh
  exact hlast g hg (List.append_cancel_left hh)

/-- C1, counterexample: the claim fails when two local files derive the same
logical key.  With local files `abindex.html` (content `A`) and
`a/index.html` (content `B`), both derive the asset key `a`; after the run
the only remote key derived from `abindex.html`, namely `asset:a`, stores the
other file's value `text/html;B`, so no remote key matches `abindex.html`'s
content. -/
theorem c1_counterexample :
    lookupKey (syncAssets (("d").data)
        [((("abindex.html").data), ("A").data), ((("a/index.html").data), ("B").data)]
        ⟨[], [], []⟩).store (("asset:a").data) = some (("text/html;B").data) ∧
    assetKey (("abindex.html").data) = ("a").data ∧
    assetKey (("a/index.html").data) = ("a").data ∧
    ¬ (("text/html;B").data = ("text/html;A").data) := by
  refine ⟨by decide, by decide, by decide, by decide⟩

/-- C1, amended: after a sync run in either mode, every local file that is the
last enumerated writer of its logical key has a remote key under the mode's
namespace whose stored value matches its content (mimetype-prefixed bytes in
asset mode, the re-serialized JSON text in card mode); and every scanned
remote key under the prefix with no matching local logical key keeps its value
and has the 24-hour expiration set. -/
theorem c1_amended_convergence :
    (∀ (dir : Str) (l₁ l₂ : List (Str × Str)) (f : Str × Str) (s : RedisState),
      (∀ g ∈ l₂, ¬ assetKey g.1 = assetKey f.1) →
      lookupKey (syncAssets dir (l₁ ++ f :: l₂) s).store (assetNs ++ assetKey f.1) =
        some (mimeFor (dir ++ ('/' :: f.1)) ++ (';' :: f.2))) ∧
    (∀ (dir : Str) (files : List (Str × Str)) (s : RedisState) (k : Str),
      k ∈ keysOf s.store → assetNs.isPrefixOf k = true →
      ¬ k.drop assetNs.length ∈ files.map (fun f => assetKey f.1) →
      lookupKey (syncAssets dir files s).store k = lookupKey s.store k ∧
      lookupKey (syncAssets dir files s).ttl k = some (60 * 60 * 24)) ∧
    (∀ (jd : Str → Option Str) (l₁ l₂ : List (Str × Str)) (f : Str × Str) (v : Str)
      (s : RedisState), (∀ g ∈ l₁ ++ f :: l₂, (jd g.2).isSome = true) →
      (∀ g ∈ l₂, ¬ cardKey g.1 = cardKey f.1) → jd f.2 = some v →
      lookupKey (syncCards jd (l₁ ++ f :: l₂) s).1.store (cardNs ++ cardKey f.1) =
        some v) ∧
    (∀ (jd : Str → Option Str) (files : List (Str × Str)) (s : RedisState) (k : Str),
      (∀ f ∈ files, (jd f.2).isSome = true) →
      k ∈ keysOf s.store → cardNs.isPrefixOf k = true →
      ¬ k.drop cardNs.length ∈ files.map (fun f => cardKey f.1) →
      lookupKey (syncCards jd files s).1.store k = lookupKey s.store k ∧
      lookupKey (syncCards jd files s).1.ttl k = some (60 * 60 * 24)) :=
  ⟨fun dir l₁ l₂ f s hlast => syncAssets_lookup_last dir l₁ l₂ f s hlast,
   fun dir files s k hk hp hout => syncAssets_stale dir files s k hk hp hout,
   fun jd l₁ l₂ f v s hall hlast hv => syncCards_lookup_last jd l₁ l₂ f v s hall hlast hv,
   fun jd files s k hall hk hp hout => syncCards_stale jd files s k hall hk hp hout⟩

/-- C1, witness for the amended theorem, at the spec's own scenario: local
file `a.css`, stale remote key `asset:stale`. -/
theorem c1_witness :
    lookupKey (syncAssets (("d").data) [((("a.css").data), ("X").data)]
        ⟨[((("asset:stale").data), ("v").data)], [], []⟩).store
      (assetNs ++ assetKey (("a.css").data)) =
      some (mimeFor (("d").data ++ ('/' :: ("a.css").data)) ++ (';' :: ("X").data)) ∧
    lookupKey (syncAssets (("d").data) [((("a.css").data), ("X").data)]
        ⟨[((("asset:stale").data), ("v").data)], [], []⟩).ttl (("asset:stale").data) =
      some (60 * 60 * 24) :=
  ⟨c1_amended_convergence.1 (("d").data) [] [] ((("a.css").data), ("X").data)
      ⟨[((("asset:stale").data), ("v").data)], [], []⟩
      (fun g hg => absurd hg (List.not_mem_nil g)),
   (c1_amended_convergence.2.1 (("d").data) [((("a.css").data), ("X").data)]
      ⟨[((("asset:stale").data), ("v").data)], [], []⟩ (("asset:stale").data)
      (by decide) (by decide) (by decide)).2⟩

/-- C2: running the asset sync twice over an unchanged directory and with no
interleaved store mutations leaves the remote key contents of the second run
identical to the first run's, and the second run expires exactly the same
keys as the first (so no expirations beyond the first run's; none when the
first run expired nothing). -/
theorem c2_idempotent (dir : Str) (files : List (Str × Str)) (s : RedisState)
    (hnd : (keysOf s.store).Nodup) :
    (syncAssets dir files (syncAssets dir files s)).store =
      (syncAssets dir files s).store ∧
    assetExpired dir files (syncAssets dir files s) = assetExpired dir files s :=
  ⟨syncAssets_idem_store dir files s hnd, syncAssets_idem_expired dir files s hnd⟩

/-- C2, witness: a concrete store with one stale key and one local file. -/
theorem c2_witness :
    (syncAssets (("d").data) [((("a.css").data), ("X").data)]
        (syncAssets (("d").data) [((("a.css").data), ("X").data)]
          ⟨[((("asset:stale").data), ("v").data)], [], []⟩)).store =
      (syncAssets (("d").data) [((("a.css").data), ("X").data)]
        ⟨[((("asset:stale").data), ("v").data)], [], []⟩).store ∧
    assetExpired (("d").data) [((("a.css").data), ("X").data)]
        (syncAssets (("d").data) [((("a.css").data), ("X").data)]
          ⟨[((("asset:stale").data), ("v").data)], [], []⟩) =
      assetExpired (("d").data) [((("a.css").data), ("X").data)]
        ⟨[((("asset:stale").data), ("v").data)], [], []⟩ :=
  c2_idempotent (("d").data) [((("a.css").data), ("X").data)]
    ⟨[((("asset:stale").data), ("v").data)], [], []⟩ (by decide)

/-- C3, counterexample: `docs/myindex.html` has a final component ending in
`index.html`, yet its derived key is `docs/m` (the last 11 characters are
stripped), not the parent directory path `docs` the claim names. -/
theorem c3_counterexample :
    assetKey (("docs/myindex.html").data) = ("docs/m").data ∧
    ¬ (("docs/m").data = ("docs").data) := ⟨by decide, by decide⟩

/-- C3, amended: in asset mode a path ending in `index.html` has its last 11
characters stripped; when the final component is exactly `index.html` this is
the parent directory path (empty for a top-level `index.html`), and in
particular `docs/index.html` maps to `docs`; every other file maps to its
full relative path. -/
theorem c3_asset_key_derivation :
    (∀ parent : Str, assetKey (parent ++ ("/index.html").data) = parent) ∧
    assetKey (("index.html").data) = [] ∧
    assetKey (("docs/index.html").data) = ("docs").data ∧
    (∀ p : Str, (("index.html").data).isSuffixOf p = false → assetKey p = p) ∧
    (∀ p : Str, (("index.html").data).isSuffixOf p = true →
      assetKey p = p.take (p.length - 11)) :=
  ⟨assetKey_parent, by decide, by decide, assetKey_not_index, assetKey_strip⟩

/-- C3, witness. -/
theorem c3_witness :
    assetKey (("docs").data ++ ("/index.html").data) = ("docs").data ∧
    assetKey (("a.css").data) = ("a.css").data :=
  ⟨c3_asset_key_derivation.1 (("docs").data),
   c3_asset_key_derivation.2.2.2.1 (("a.css").data) (by decide)⟩

/-- C4, counterexample: for `sub/a.b.json` the code derives the key `a`
(everything from the first dot on is dropped), while the filename with its
extension stripped is `a.b`. -/
theorem c4_counterexample :
    cardKey (("sub/a.b.json").data) = ("a").data ∧
    specCardKey (("sub/a.b.json").data) = ("a.b").data ∧
    ¬ (("a").data = ("a.b").data) := ⟨by decide, by decide, by decide⟩

/-- C4, amended: in card mode the logical key is the final path component
truncated at its first dot (directory components ignored); `foo/bar.json`
maps to `bar`; and when two files derive the same key the later enumerated
one's re-serialized content is the one stored. -/
theorem c4_card_key_derivation :
    (∀ ds fn : Str, ¬ '/' ∈ fn →
      cardKey (ds ++ ('/' :: fn)) = fn.takeWhile (fun x => ¬ x = '.')) ∧
    (∀ ds stem rest : Str, ¬ '/' ∈ stem → ¬ '.' ∈ stem → ¬ '/' ∈ rest →
      cardKey (ds ++ ('/' :: (stem ++ ('.' :: rest)))) = stem) ∧
    cardKey (("foo/bar.json").data) = ("bar").data ∧
    (∀ (jd : Str → Option Str) (p₁ c₁ p₂ c₂ v₁ v₂ : Str) (s : RedisState),
      cardKey p₁ = cardKey p₂ → jd c₁ = some v₁ → jd c₂ = some v₂ →
      lookupKey (syncCards jd [(p₁, c₁), (p₂, c₂)] s).1.store (cardNs ++ cardKey p₂) =
        some v₂) := by
  refine ⟨cardKey_ignores_dirs, ?_, by decide, ?_⟩
  · intro ds stem rest hs hd hr
    rw [cardKey_ignores_dirs ds _ ?_, takeWhile_stem stem rest hd]
    intro hmem
    rcases List.mem_append.mp hmem with h | h
    · exact hs h
    · rcases List.mem_cons.mp h with h | h
      · exact absurd h (by decide)
      · exact hr h
  · intro jd p₁ c₁ p₂ c₂ v₁ v₂ s hk h1 h2
    have hall : ∀ g ∈ [(p₁, c₁)] ++ (p₂, c₂) :: [], (jd g.2).isSome = true := by
      intro g hg
      rcases List.mem_cons.mp hg with rfl | hg'
      · rw [show ((p₁, c₁) : Str × Str).2 = c₁ from rfl, h1]
        rfl
      · rcases List.mem_cons.mp hg' with rfl | hg''
        · rw [show ((p₂, c₂) : Str × Str).2 = c₂ from rfl, h2]
          rfl
        · exact absurd hg'' (List.not_mem_nil g)
    exact syncCards_lookup_last jd [(p₁, c₁)] [] (p₂, c₂) v₂ s hall
      (fun g hg => absurd hg (List.not_mem_nil g)) h2

/-- C4, witness. -/
theorem c4_witness :
    cardKey (("sub").data ++ ('/' :: ("bar.json").data)) =
      (("bar.json").data).takeWhile (fun x => ¬ x = '.') ∧
    cardKey (("x").data ++ ('/' :: (("bar").data ++ ('.' :: ("json").data)))) =
      ("bar").data :=
  ⟨c4_card_key_derivation.1 (("sub").data) (("bar.json").data) (by decide),
   c4_card_key_derivation.2.1 (("x").data) (("bar").data) (("json").data)
     (by decide) (by decide) (by decide)⟩

/-- C5: the value stored for an uploaded file is the mimetype determined by
the file's extension, a `;` separator byte, then the raw content; the
mimetype falls back to `text/plain` whenever the extension is not one of the
seven recognized ones or the filename has no extension. -/
theorem c5_mimetype :
    (∀ dir p : Str, mimeFor (dir ++ ('/' :: p)) = specMime p) ∧
    (∀ p e : Str, fileExt? p = some e → ¬ e ∈ keysOf mimetypes →
      specMime p = ("text/plain").data) ∧
    (∀ p : Str, fileExt? p = none → specMime p = ("text/plain").data) ∧
    (∀ (dir : Str) (l₁ l₂ : List (Str × Str)) (f : Str × Str) (s : RedisState),
      (∀ g ∈ l₂, ¬ assetKey g.1 = assetKey f.1) →
      lookupKey (syncAssets dir (l₁ ++ f :: l₂) s).store (assetNs ++ assetKey f.1) =
        some (specMime f.1 ++ (';' :: f.2))) := by
  refine ⟨mimeFor_eq_specMime, specMime_default_of_unknown, specMime_default_of_none, ?_⟩
  intro dir l₁ l₂ f s hlast
  rw [syncAssets_lookup_last dir l₁ l₂ f s hlast, mimeFor_eq_specMime]

/-- C5, witness: a recognized extension and an unrecognized one. -/
theorem c5_witness :
    mimeFor (("d").data ++ ('/' :: ("x.css").data)) = specMime (("x.css").data) ∧
    specMime (("x.zzz").data) = ("text/plain").data ∧
    lookupKey (syncAssets (("d").data) [((("x.zzz").data), ("hi").data)]
        ⟨[], [], []⟩).store (assetNs ++ assetKey (("x.zzz").data)) =
      some (specMime (("x.zzz").data) ++ (';' :: ("hi").data)) :=
  ⟨c5_mimetype.1 (("d").data) (("x.css").data),
   c5_mimetype.2.1 (("x.zzz").data) (("zzz").data) (by decide) (by decide),
   c5_mimetype.2.2.2 (("d").data) [] [] ((("x.zzz").data), ("hi").data) ⟨[], [], []⟩
     (fun g hg => absurd hg (List.not_mem_nil g))⟩

theorem countP_eq_one_of_nodup_mem (k : Str) (L : List Str) (hnd : L.Nodup)
    (hk : k ∈ L) : L.countP (fun m => m = k) = 1 := by
  induction L with
  | nil => cases hk
  | cons a L ih =>
    rw [List.countP_cons]
    rw [List.nodup_cons] at hnd
    rcases List.mem_cons.mp hk with rfl | hk'
    · rw [List.countP_eq_zero.mpr (fun m hm => by
        simp only [decide_eq_true_eq]
        exact fun he => hnd.1 (he ▸ hm)), if_pos (by simp)]
    · rw [ih hnd.2 hk', if_neg (by
        simp only [decide_eq_true_eq]
        exact fun he => hnd.1 (he ▸ hk'))]

/-- C6: every uploaded item publishes exactly one message on the
`invalidations` channel carrying the logical key without its namespace (in
either mode); with distinct local keys each created or updated key therefore
gets exactly one message; and in the scenario with local files `a.css` and
`sub/index.html` exactly the two messages `sub` and `a.css` are published. -/
theorem c6_invalidations :
    (∀ (dir : Str) (files : List (Str × Str)) (s : RedisState),
      (syncAssets dir files s).published =
        s.published ++ files.map (fun f => (invalChan, assetKey f.1))) ∧
    (∀ (jd : Str → Option Str) (files : List (Str × Str)) (s : RedisState),
      (∀ f ∈ files, (jd f.2).isSome = true) →
      (syncCards jd files s).1.published =
        s.published ++ files.map (fun f => (invalChan, cardKey f.1))) ∧
    (∀ (dir : Str) (files : List (Str × Str)) (s : RedisState) (k : Str),
      s.published = [] → (files.map (fun f => assetKey f.1)).Nodup →
      k ∈ files.map (fun f => assetKey f.1) →
      ((syncAssets dir files s).published.map Prod.snd).countP (fun m => m = k) = 1) ∧
    (∀ (c₁ c₂ : Str) (s : RedisState), s.published = [] →
      List.Perm
        ((syncAssets (("d").data)
            [((("a.css").data), c₁), ((("sub/index.html").data), c₂)] s).published.map
          Prod.snd)
        [("sub").data, ("a.css").data]) := by
  refine ⟨syncAssets_published, syncCards_published, ?_, ?_⟩
  · intro dir files s k hpub hnd hk
    rw [syncAssets_published, hpub, List.nil_append, List.map_map]
    exact countP_eq_one_of_nodup_mem k _ hnd hk
  · intro c₁ c₂ s hpub
    rw [syncAssets_published, hpub, List.nil_append]
    have he : (([((("a.css").data), c₁), ((("sub/index.html").data), c₂)]).map
        (fun f => (invalChan, assetKey f.1))).map Prod.snd =
        [("a.css").data, ("sub").data] := by
      show [assetKey (("a.css").data), assetKey (("sub/index.html").data)] = _
      decide
    rw [he]
    decide

/-- C6, witness. -/
theorem c6_witness :
    ((syncAssets (("d").data) [((("a.css").data), ("X").data)]
        ⟨[], [], []⟩).published.map Prod.snd).countP
      (fun m => m = (("a.css").data)) = 1 ∧
    List.Perm
      ((syncAssets (("d").data)
          [((("a.css").data), ("X").data), ((("sub/index.html").data), ("Y").data)]
          ⟨[], [], []⟩).published.map Prod.snd)
      [("sub").data, ("a.css").data] :=
  ⟨c6_invalidations.2.2.1 (("d").data) [((("a.css").data), ("X").data)] ⟨[], [], []⟩
     (("a.css").data) rfl (by decide) (by decide),
   c6_invalidations.2.2.2 (("X").data) (("Y").data) ⟨[], [], []⟩ rfl⟩

/-- C7: a remote key with no matching local item keeps its stored value
untouched (no write, no deletion) and acquires exactly the 24-hour
(`60 * 60 * 24` seconds) expiration, in both modes (in card mode provided the
run reaches the expiration phase, i.e. every file parses). -/
theorem c7_expire_frame :
    (∀ (dir : Str) (files : List (Str × Str)) (s : RedisState) (k : Str),
      k ∈ keysOf s.store → assetNs.isPrefixOf k = true →
      ¬ k.drop assetNs.length ∈ files.map (fun f => assetKey f.1) →
      lookupKey (syncAssets dir files s).store k = lookupKey s.store k ∧
      lookupKey (syncAssets dir files s).ttl k = some (60 * 60 * 24)) ∧
    (∀ (jd : Str → Option Str) (files : List (Str × Str)) (s : RedisState) (k : Str),
      (∀ f ∈ files, (jd f.2).isSome = true) →
      k ∈ keysOf s.store → cardNs.isPrefixOf k = true →
      ¬ k.drop cardNs.length ∈ files.map (fun f => cardKey f.1) →
      lookupKey (syncCards jd files s).1.store k = lookupKey s.store k ∧
      lookupKey (syncCards jd files s).1.ttl k = some (60 * 60 * 24)) :=
  ⟨fun dir files s k hk hp hout => syncAssets_stale dir files s k hk hp hout,
   fun jd files s k hall hk hp hout => syncCards_stale jd files s k hall hk hp hout⟩

/-- C7, witness: the stale key of the spec's scenario. -/
theorem c7_witness :
    lookupKey (syncAssets (("d").data) [((("a.css").data), ("X").data)]
        ⟨[((("asset:stale").data), ("v").data)], [], []⟩).store (("asset:stale").data) =
      lookupKey (⟨[((("asset:stale").data), ("v").data)], [], []⟩ : RedisState).store
        (("asset:stale").data) ∧
    lookupKey (syncAssets (("d").data) [((("a.css").data), ("X").data)]
        ⟨[((("asset:stale").data), ("v").data)], [], []⟩).ttl (("asset:stale").data) =
      some (60 * 60 * 24) :=
  c7_expire_frame.1 (("d").data) [((("a.css").data), ("X").data)]
    ⟨[((("asset:stale").data), ("v").data)], [], []⟩ (("asset:stale").data)
    (by decide) (by decide) (by decide)

/-- C8, counterexample: re-uploading does not leave an existing TTL in place.
Starting from a store holding `asset:a` with a 500-second TTL, re-uploading
local file `a` sets the value and clears the TTL (plain Redis `SET` discards
any previous time to live), leaving no TTL rather than the existing one. -/
theorem c8_counterexample :
    lookupKey (syncAssets (("d").data) [((("a").data), ("new").data)]
        ⟨[((("asset:a").data), ("old").data)], [((("asset:a").data), 500)], []⟩).ttl
      (("asset:a").data) = none ∧
    lookupKey (syncAssets (("d").data) [((("a").data), ("new").data)]
        ⟨[((("asset:a").data), ("old").data)], [((("asset:a").data), 500)], []⟩).store
      (("asset:a").data) = some (("text/plain;new").data) := ⟨by decide, by decide⟩

/-- C8, amended: re-uploading a key sets its value and discards any existing
TTL — after the run, a key backed by a local file (whose last writer is that
file) stores the new value and carries no expiration, in either mode. -/
theorem c8_reupload_ttl :
    (∀ (dir : Str) (l₁ l₂ : List (Str × Str)) (f : Str × Str) (s : RedisState),
      (keysOf s.store).Nodup → (∀ g ∈ l₂, ¬ assetKey g.1 = assetKey f.1) →
      lookupKey (syncAssets dir (l₁ ++ f :: l₂) s).store (assetNs ++ assetKey f.1) =
        some (mimeFor (dir ++ ('/' :: f.1)) ++ (';' :: f.2)) ∧
      lookupKey (syncAssets dir (l₁ ++ f :: l₂) s).ttl (assetNs ++ assetKey f.1) =
        none) ∧
    (∀ (jd : Str → Option Str) (l₁ l₂ : List (Str × Str)) (f : Str × Str) (v : Str)
      (s : RedisState), (keysOf s.store).Nodup →
      (∀ g ∈ l₁ ++ f :: l₂, (jd g.2).isSome = true) →
      (∀ g ∈ l₂, ¬ cardKey g.1 = cardKey f.1) → jd f.2 = some v →
      lookupKey (syncCards jd (l₁ ++ f :: l₂) s).1.store (cardNs ++ cardKey f.1) =
        some v ∧
      lookupKey (syncCards jd (l₁ ++ f :: l₂) s).1.ttl (cardNs ++ cardKey f.1) =
        none) :=
  ⟨fun dir l₁ l₂ f s hnd hlast =>
    ⟨syncAssets_lookup_last dir l₁ l₂ f s hlast,
     syncAssets_fresh_ttl dir (l₁ ++ f :: l₂) s hnd f
       (List.mem_append_right l₁ (List.mem_cons_self f l₂))⟩,
   fun jd l₁ l₂ f v s hnd hall hlast hv =>
    ⟨syncCards_lookup_last jd l₁ l₂ f v s hall hlast hv,
     syncCards_fresh_ttl jd (l₁ ++ f :: l₂) s hall hnd f
       (List.mem_append_right l₁ (List.mem_cons_self f l₂))⟩⟩

/-- C8, witness: the counterexample state again, through the amended theorem. -/
theorem c8_witness :
    lookupKey (syncAssets (("d").data) ([] ++ ((("a").data), ("new").data) :: [])
        ⟨[((("asset:a").data), ("old").data)], [((("asset:a").data), 500)], []⟩).store
      (assetNs ++ assetKey (("a").data)) =
      some (mimeFor (("d").data ++ ('/' :: ("a").data)) ++ (';' :: ("new").data)) ∧
    lookupKey (syncAssets (("d").data) ([] ++ ((("a").data), ("new").data) :: [])
        ⟨[((("asset:a").data), ("old").data)], [((("asset:a").data), 500)], []⟩).ttl
      (assetNs ++ assetKey (("a").data)) = none :=
  c8_reupload_ttl.1 (("d").data) [] [] ((("a").data), ("new").data)
    ⟨[((("asset:a").data), ("old").data)], [((("asset:a").data), 500)], []⟩
    (by decide) (fun g hg => absurd hg (List.not_mem_nil g))

/-- C9: a card-mode run over files `good ++ bad :: rest` where every file of
`good` parses and `bad` does not aborts at `bad`: the outcome is exactly the
state after uploading `good` (so nothing of `rest` is uploaded), with failure
flagged; no key acquires a TTL it did not already have (no expirations are
performed); keys not written by `good` are untouched; and every write of
`good` committed before the failure remains in the store. -/
theorem c9_card_abort (jd : Str → Option Str) (good rest : List (Str × Str))
    (pb cb : Str) (s : RedisState)
    (hgood : ∀ f ∈ good, (jd f.2).isSome = true) (hbad : jd cb = none) :
    syncCards jd (good ++ (pb, cb) :: rest) s =
      ((cardLoop jd s (remoteKeys s cardNs) good).1, false) ∧
    (∀ k t, lookupKey (syncCards jd (good ++ (pb, cb) :: rest) s).1.ttl k = some t →
      lookupKey s.ttl k = some t) ∧
    (∀ k, ¬ k ∈ keysOf (cardWrites jd good) →
      lookupKey (syncCards jd (good ++ (pb, cb) :: rest) s).1.store k =
        lookupKey s.store k) ∧
    (∀ (l₁ l₂ : List (Str × Str)) (f : Str × Str) (v : Str), good = l₁ ++ f :: l₂ →
      (∀ g ∈ l₂, ¬ cardKey g.1 = cardKey f.1) → jd f.2 = some v →
      lookupKey (syncCards jd (good ++ (pb, cb) :: rest) s).1.store
        (cardNs ++ cardKey f.1) = some v) := by
  have hrun : syncCards jd (good ++ (pb, cb) :: rest) s =
      ((cardLoop jd s (remoteKeys s cardNs) good).1, false) := by
    simp only [syncCards]
    rw [cardLoop_abort jd good s (remoteKeys s cardNs) pb cb rest hgood hbad]
    rfl
  refine ⟨hrun, ?_, ?_, ?_⟩
  · intro k t h
    rw [hrun] at h
    rw [cardLoop_ttl jd good s (remoteKeys s cardNs) k hgood] at h
    by_cases hk : k ∈ keysOf (cardWrites jd good)
    · rw [if_pos hk] at h
      cases h
    · rw [if_neg hk] at h
      exact h
  · intro k hk
    rw [hrun]
    show lookupKey (cardLoop jd s (remoteKeys s cardNs) good).1.store k = _
    rw [cardLoop_store jd good s (remoteKeys s cardNs) hgood, lookupKey_applySets,
      finalVal_eq_none _ _ (fun p hp he => hk (by
        rw [← he]
        exact List.mem_map_of_mem Prod.fst hp))]
  · intro l₁ l₂ f v hsplit hlast hv
    rw [hrun]
    show lookupKey (cardLoop jd s (remoteKeys s cardNs) good).1.store _ = _
    rw [cardLoop_store jd good s (remoteKeys s cardNs) hgood, lookupKey_applySets,
      hsplit, finalVal_cardWrites_last jd l₁ l₂ f v hlast hv]

/-- C9, witness: one good card file, then a malformed one, then one more that
is never reached. -/
theorem c9_witness :
    syncCards (fun c => if c = ("bad").data then none else some c)
        ([((("g.json").data), ("ok").data)] ++
          ((("b.json").data), ("bad").data) :: [((("z.json").data), ("zz").data)])
        ⟨[], [], []⟩ =
      ((cardLoop (fun c => if c = ("bad").data then none else some c) ⟨[], [], []⟩
          (remoteKeys ⟨[], [], []⟩ cardNs) [((("g.json").data), ("ok").data)]).1,
        false) :=
  (c9_card_abort (fun c => if c = ("bad").data then none else some c)
    [((("g.json").data), ("ok").data)] [((("z.json").data), ("zz").data)]
    (("b.json").data) (("bad").data) ⟨[], [], []⟩
    (by decide) (by decide)).1

/-- C10: with a first argument that is neither `sync_assets` nor `sync_cards`,
the program prints no usage message, mutates nothing in the store, and exits
with status 0 — while still demanding `REDIS_URL` (exiting nonzero, without a
client, when it is absent) and constructing the store client before doing
nothing when it is present. -/
theorem c10_unknown_mode (mode : Str) (rest : List Str) (url : Str)
    (walk : Str → List (Str × Str)) (jd : Str → Option Str) (s : RedisState)
    (h1 : ¬ mode = ("sync_assets").data) (h2 : ¬ mode = ("sync_cards").data) :
    runMain (mode :: rest) (some url) walk jd s = ⟨0, false, false, true, s⟩ ∧
    runMain (mode :: rest) none walk jd s = ⟨1, false, true, false, s⟩ := by
  constructor
  · simp only [runMain]
    rw [if_neg (fun hc => h1 hc.1), if_neg (fun hc => h2 hc.1), if_neg h1, if_neg h2]
  · simp only [runMain]
    rw [if_neg (fun hc => h1 hc.1), if_neg (fun hc => h2 hc.1)]

/-- C10, witness. -/
theorem c10_witness :
    runMain ((("bogus").data) :: []) (some (("redis://u").data)) (fun _ => [])
        (fun _ => none) ⟨[], [], []⟩ = ⟨0, false, false, true, ⟨[], [], []⟩⟩ ∧
    runMain ((("bogus").data) :: []) none (fun _ => []) (fun _ => none) ⟨[], [], []⟩ =
      ⟨1, false, true, false, ⟨[], [], []⟩⟩ :=
  c10_unknown_mode (("bogus").data) [] (("redis://u").data) (fun _ => [])
    (fun _ => none) ⟨[], [], []⟩ (by decide) (by decide)
